import Mathlib

/-
Verification of the crrd round-robin time-series database.

The definitions below are a shallow embedding of the C sources:
`find_period`, `forward`, `rrd_create`, `rrd_len`, `rrd_store`,
`rrd_add_at`, `rrd_get`, `dbrrd_query`, `dbrrd_add_at`, `dbrrd_create`.

Modelling conventions:
 - Timestamps and bucket widths (`hrtime_t` / `rrdt_t`) are modelled as
   `Nat`; all timestamps produced by the clock sources are non-negative
   and none of the arithmetic on them wraps inside the parameter envelope
   the callers provide.
 - `head` and `tail` are C `int`s with the sentinel -1; they are modelled
   as `Int`.
 - The opaque fixed-size payload is a type parameter `A`; the entries
   region is a `List A` of length `capacity`, and `memcpy` into slot `i`
   is `List.set i`.
 - The `update` and `zero` callbacks write to the ring only through the
   store accessor, so they are modelled as functions from the ring state
   and the incoming payload to the new contents of the entries region.
 - Allocation is modelled by a boolean oracle; `rrd_create` returns
   `none` exactly when its allocation fails.
 - The while-loop of `rrd_add_at` additionally records, as ghost data,
   the ring state passed to each `zero` invocation; the first component
   is exactly what the C loop computes.
-/

namespace Crrd

/-- find_period: start of the period of duration `tperiod` containing `time`.
    C: `rem = time % tperiod; time -= rem; return time;` -/
def find_period (time tperiod : Nat) : Nat :=
  time - time % tperiod

/-- The ring header of `struct rrd`.  The `name`, `resolution`, `capacity`,
    `entries`, `head`, `tail`, `start`, `last` fields of the C struct;
    `size` is subsumed by the payload type parameter, `next` by the lists
    used for the dbrrd stack, and the callback pointers live in `RRDF`. -/
structure RRD (A : Type) where
  name : String
  resolution : Nat
  capacity : Nat
  entries : List A
  head : Int
  tail : Int
  start : Nat
  last : Nat
  deriving Repr, DecidableEq

/-- rrd_len: number of live buckets.
    C: tail < 0 gives 0; head <= tail gives tail - head + 1;
    head > tail gives capacity - head + tail + 1. -/
def rrd_len {A : Type} (r : RRD A) : Nat :=
  if r.tail < 0 then 0
  else if r.head ≤ r.tail then (r.tail - r.head + 1).toNat
  else ((r.capacity : Int) - r.head + r.tail + 1).toNat

/-- rrd_tail accessor. -/
def rrd_tail {A : Type} (r : RRD A) : Int :=
  r.tail

/-- rrd_capacity accessor. -/
def rrd_capacity {A : Type} (r : RRD A) : Nat :=
  r.capacity

/-- rrd_resolution accessor. -/
def rrd_resolution {A : Type} (r : RRD A) : Nat :=
  r.resolution

/-- forward: bump `tail` (and `head` on collision) with wrap at
    `capacity`, and advance `start` to
    `find_period (start + resolution + 1) resolution`. -/
def forward {A : Type} (r : RRD A) : RRD A :=
  let t := r.tail + 1
  let t := if t ≥ (r.capacity : Int) then 0 else t
  let h :=
    if t = r.head then
      let h := r.head + 1
      if h ≥ (r.capacity : Int) then 0 else h
    else r.head
  { r with tail := t, head := h,
           start := find_period (r.start + r.resolution + 1) r.resolution }

/-- rrd_store: memcpy the payload into the bucket at `tail`. -/
def rrd_store {A : Type} (r : RRD A) (v : A) : RRD A :=
  { r with entries := r.entries.set r.tail.toNat v }

/-- The type of the update/zero callbacks: they read the ring state and
    the incoming payload and produce the new contents of the entries
    region (writing only through the store accessor). -/
abbrev CB (A : Type) : Type := RRD A → A → List A

/-- The while-loop of `rrd_add_at`:
    `while (r->start < t0) { forward(r); (r->zero)(r, v); }`.
    The second component is ghost data recording the ring state passed to
    each `zero` invocation.  The conjunct `0 < r.resolution` in the guard
    models the fact that a zero resolution makes the surrounding code
    divide by zero (and in that case `t0 = 0`, so the C loop body is
    unreachable as well). -/
def rrd_skip {A : Type} (ze : CB A) (v : A) (t0 : Nat) (r : RRD A) :
    RRD A × List (RRD A) :=
  if _h : r.start < t0 ∧ 0 < r.resolution then
    let f := forward r
    let f2 := { f with entries := ze f v }
    let s := rrd_skip ze v t0 f2
    (s.1, f :: s.2)
  else (r, [])
termination_by t0 - r.start
decreasing_by
  simp only [forward, find_period]
  have hres : 0 < r.resolution := _h.2
  have hmod : (r.start + r.resolution + 1) % r.resolution < r.resolution :=
    Nat.mod_lt _ hres
  omega

/-- rrd_add_at: insert payload `v` at time `t` into ring `r`, using the
    callbacks `up` and `ze`.  Mirrors the four paths of the C function:
    empty ring, backdated sample, same period, skip forward. -/
def rrd_add_at {A : Type} (up ze : CB A) (r : RRD A) (v : A) (t : Nat) :
    RRD A :=
  let t0 := find_period t r.resolution
  if r.tail < 0 then
    let r1 := rrd_store { r with head := 0, tail := 0 } v
    { r1 with start := t0, last := t }
  else if t < r.last then
    r
  else if t0 = r.start then
    let r1 := { r with start := t0, last := t }
    { r1 with entries := up r1 v }
  else
    let s := (rrd_skip ze v t0 r).1
    let r1 := rrd_store s v
    { r1 with start := t0, last := t }

/-- rrd_get: borrowed view of the i-th logical bucket (oldest first);
    `none` models the NULL return for an index outside `[0, rrd_len)`. -/
def rrd_get {A : Type} (r : RRD A) (i : Int) : Option A :=
  if i < 0 ∨ (rrd_len r : Int) ≤ i then none
  else if r.head + i ≥ (r.capacity : Int) then
    r.entries[(r.head + i - (r.capacity : Int)).toNat]?
  else
    r.entries[(r.head + i).toNat]?

/-- Kernel-build default update callback: `r = r; pv = pv;` (a no-op). -/
def default_update {A : Type} : CB A :=
  fun r _ => r.entries

/-- Kernel-build default zero callback: `r = r; pv = pv;` (a no-op). -/
def default_zero {A : Type} : CB A :=
  fun r _ => r.entries

/-- A ring together with its two callback pointers
    (the `update` and `zero` fields of `struct rrd`). -/
structure RRDF (A : Type) where
  r : RRD A
  update : CB A
  zero : CB A

/-- The ring state rrd_create initializes on a successful allocation:
    `head = tail = -1`, `start = last = 0`; `junk` stands for the
    uninitialized contents of the freshly allocated entries region. -/
def rrd_fresh {A : Type} (s : String) (res cap : Nat) (junk : A) : RRD A :=
  { name := s, resolution := res, capacity := cap,
    entries := List.replicate cap junk,
    head := -1, tail := -1, start := 0, last := 0 }

/-- rrd_create: allocate and initialize a ring.  `allocOk` is the
    allocation oracle (`none` models the NULL return on allocation
    failure). -/
def rrd_create {A : Type} (s : String) (res cap : Nat) (junk : A)
    (allocOk : Bool) : Option (RRDF A) :=
  if allocOk then
    some { r := rrd_fresh s res cap junk,
           update := default_update, zero := default_zero }
  else none

/-- rrd_setfunctions: replace the two callback pointers. -/
def rrd_setfunctions {A : Type} (rf : RRDF A) (up ze : CB A) : RRDF A :=
  { rf with update := up, zero := ze }

end Crrd

namespace Crrd

/-- C's `rrd_len(r) - 1` where `rrd_len` returns a 32-bit `unsigned`:
    for an empty ring the subtraction wraps around to `2^32 - 1`. -/
def len_minus_one_u32 (n : Nat) : Nat :=
  (n + (2 ^ 32 - 1)) % 2 ^ 32

/-- `r->start - (r->resolution * (rrd_len(r) - 1))` from dbrrd_query:
    the lower edge of the retained horizon, computed in the signed
    64-bit time type (the `rrd_len(r) - 1` factor is a 32-bit unsigned
    subtraction). -/
def horizonLow {A : Type} (r : RRD A) : Int :=
  (r.start : Int) - (r.resolution : Int) * (len_minus_one_u32 (rrd_len r) : Int)

/-- The index `i = (t0 - start) / r->resolution` computed by dbrrd_query
    on a hit (truncating signed division, as in C). -/
def queryIndex {A : Type} (r : RRD A) (tv : Nat) : Int :=
  (((find_period tv r.resolution : Nat) : Int) - horizonLow r).tdiv (r.resolution : Int)

/-- The ring-walking loop of dbrrd_query: the first ring whose check
    `t0 >= start` succeeds answers the query. -/
def dbrrd_query_loop {A : Type} (rs : List (RRD A)) (tv : Nat) :
    Option (Option A × Nat) :=
  match rs with
  | [] => none
  | r :: rest =>
    if ((find_period tv r.resolution : Nat) : Int) ≥ horizonLow r then
      some (rrd_get r (queryIndex r tv), r.resolution)
    else dbrrd_query_loop rest tv

/-- dbrrd_query: reject future queries and queries against an empty
    head ring, then walk the rings finest-first.  A `some (vp, res)`
    result models the C function returning 1 having stored `vp`/`res`
    through its out-parameters; `none` models the 0 return. -/
def dbrrd_query {A : Type} (rs : List (RRD A)) (tv : Nat) :
    Option (Option A × Nat) :=
  match rs with
  | [] => none
  | r0 :: _ =>
    if tv > r0.last then none
    else if rrd_len r0 = 0 then none
    else dbrrd_query_loop rs tv

/-- dbrrd_add_at: fan the sample out to every ring of the stack. -/
def dbrrd_add_at {A : Type} (up ze : CB A) (rs : List (RRD A)) (v : A)
    (t : Nat) : List (RRD A) :=
  rs.map (fun r => rrd_add_at up ze r v t)

/-- The construction loop of dbrrd_create.  `specs` is the
    `dbrrd_spec_t` array as (width, capacity) pairs, scanned until the
    first zero-capacity sentinel; `alloc` is the allocation oracle for
    the successive `rrd_create` calls (`k` counts them); `h` is the list
    head built so far (each new ring is pushed on the front).  The second
    component records the rings torn down by `dbrrd_destroy` when an
    allocation fails. -/
def dbrrd_go {A : Type} (nm : String) (junk : A) (up ze : CB A)
    (alloc : Nat → Bool) (k : Nat) (specs : List (Nat × Nat))
    (h : List (RRDF A)) : Option (List (RRDF A)) × List (RRDF A) :=
  match specs with
  | [] => (some h, [])
  | (w, cap) :: rest =>
    if cap = 0 then (some h, [])
    else
      match rrd_create nm w cap junk (alloc k) with
      | none => (none, h)
      | some rf => dbrrd_go nm junk up ze alloc (k + 1) rest
          (rrd_setfunctions rf up ze :: h)

/-- dbrrd_create: build the stack from the spec array.  Returns the ring
    list (stack head first) or `none` on allocation failure; the second
    component is the teardown log (the rings destroyed on failure). -/
def dbrrd_create {A : Type} (nm : String) (specs : List (Nat × Nat))
    (junk : A) (up ze : CB A) (alloc : Nat → Bool) :
    Option (List (RRDF A)) × List (RRDF A) :=
  dbrrd_go nm junk up ze alloc 0 specs []

/-- Ring states reachable from a freshly created ring by any sequence of
    rrd_add_at operations with a fixed callback pair. -/
inductive rrdReachable {A : Type} (up ze : CB A) (nm : String)
    (res cap : Nat) (junk : A) : RRD A → Prop
  | base : rrdReachable up ze nm res cap junk (rrd_fresh nm res cap junk)
  | step (r : RRD A) (v : A) (t : Nat) :
      rrdReachable up ze nm res cap junk r →
      rrdReachable up ze nm res cap junk (rrd_add_at up ze r v t)

/-- The inductive invariant maintained by rrd_add_at on a ring of width
    w and capacity cap: either empty (head = tail = -1) or head and tail
    are valid indices; start is width-aligned; and, when non-empty, last
    lies in the active bucket [start, start + w). -/
def rrdInv {A : Type} (w cap : Nat) (r : RRD A) : Prop :=
  r.resolution = w ∧ r.capacity = cap ∧
  ((r.head = -1 ∧ r.tail = -1) ∨
    (0 ≤ r.head ∧ r.head < (cap : Int) ∧ 0 ≤ r.tail ∧ r.tail < (cap : Int))) ∧
  r.start % w = 0 ∧
  (0 ≤ r.tail → r.start ≤ r.last ∧ r.last - r.start < w)

/-- Stack states reachable from a dbrrd_create result by any sequence of
    dbrrd_add_at operations (every ring of a created stack carries the
    same callback pair, so the fan-out applies that shared pair). -/
inductive dbrrdReachable {A : Type} (up ze : CB A) : List (RRD A) → Prop
  | created (nm : String) (specs : List (Nat × Nat)) (junk : A)
      (alloc : Nat → Bool) (rfs : List (RRDF A)) :
      (dbrrd_create nm specs junk up ze alloc).1 = some rfs →
      dbrrdReachable up ze (rfs.map RRDF.r)
  | add (rs : List (RRD A)) (v : A) (t : Nat) :
      dbrrdReachable up ze rs →
      dbrrdReachable up ze (dbrrd_add_at up ze rs v t)

/-- The retained horizon of a non-empty ring contains the timestamp tv:
    `start - width*(length-1) <= tv < start + width` (the spec's
    "retained horizon" interval, lower edge as dbrrd_query computes it). -/
abbrev Covers {A : Type} (r : RRD A) (tv : Nat) : Prop :=
  horizonLow r ≤ (tv : Int) ∧
  (tv : Int) < (r.start : Int) + (r.resolution : Int)

/-- Well-formedness of a non-empty ring state: positive width, positive
    capacity fitting in 32 bits, a full entries region, width-aligned
    start, valid head and tail indices, and last within the active
    bucket.  All of these hold in every reachable non-empty state. -/
abbrev ringWF {A : Type} (r : RRD A) : Prop :=
  0 < r.resolution ∧ 0 < r.capacity ∧ r.capacity < 2 ^ 32 ∧
  r.entries.length = r.capacity ∧ r.start % r.resolution = 0 ∧
  0 ≤ r.head ∧ r.head < (r.capacity : Int) ∧
  0 ≤ r.tail ∧ r.tail < (r.capacity : Int) ∧
  r.start ≤ r.last ∧ r.last - r.start < r.resolution

end Crrd

namespace Crrd

/-- C5: for every timestamp t and width w > 0, `find_period t w` equals
    `t - t % w`, is the largest multiple of w not exceeding t, and a
    timestamp on a bucket boundary maps to itself; the concrete table at
    widths 30, 60, 3600 and 86400 seconds holds. -/
theorem find_period_spec (t w : Nat) (hw : 0 < w) :
    find_period t w = t - t % w ∧
    w ∣ find_period t w ∧
    find_period t w ≤ t ∧
    (∀ m : Nat, w ∣ m → m ≤ t → m ≤ find_period t w) ∧
    (w ∣ t → find_period t w = t) ∧
    (find_period 1704189850 30 = 1704189840 ∧
     find_period 1704189869 30 = 1704189840 ∧
     find_period 1704189870 30 = 1704189870 ∧
     find_period 1704189850 60 = 1704189840 ∧
     find_period 1704189850 3600 = 1704189600 ∧
     find_period 1704189850 86400 = 1704153600) := by
  have hdm := Nat.div_add_mod t w
  have hkey : find_period t w = w * (t / w) := by
    unfold find_period; omega
  refine ⟨rfl, ⟨t / w, hkey⟩, Nat.sub_le _ _, ?_, ?_, ?_⟩
  · intro m hm hmt
    obtain ⟨k, rfl⟩ := hm
    rw [hkey]
    exact Nat.mul_le_mul_left w ((Nat.le_div_iff_mul_le hw).mpr
      (by rwa [Nat.mul_comm] at hmt))
  · intro hdvd
    obtain ⟨k, rfl⟩ := hdvd
    simp [find_period, Nat.mul_mod_right]
  · norm_num [find_period]

/-- Witness for find_period_spec at t = 95, w = 30. -/
theorem find_period_spec_witness :
    find_period 95 30 = 95 - 95 % 30 ∧
    30 ∣ find_period 95 30 ∧
    find_period 95 30 ≤ 95 ∧
    (∀ m : Nat, 30 ∣ m → m ≤ 95 → m ≤ find_period 95 30) ∧
    (30 ∣ 95 → find_period 95 30 = 95) ∧
    (find_period 1704189850 30 = 1704189840 ∧
     find_period 1704189869 30 = 1704189840 ∧
     find_period 1704189870 30 = 1704189870 ∧
     find_period 1704189850 60 = 1704189840 ∧
     find_period 1704189850 3600 = 1704189600 ∧
     find_period 1704189850 86400 = 1704153600) :=
  find_period_spec 95 30 (by decide)

theorem rrd_skip_resolution {A : Type} (ze : CB A) (v : A) (t0 : Nat)
    (r : RRD A) : ((rrd_skip ze v t0 r).1).resolution = r.resolution := by
  induction r using rrd_skip.induct ze v t0 with
  | case1 r hc f f2 ih =>
      rw [rrd_skip, dif_pos hc]
      simpa [forward] using ih
  | case2 r hc => rw [rrd_skip, dif_neg hc]

theorem rrd_skip_capacity {A : Type} (ze : CB A) (v : A) (t0 : Nat)
    (r : RRD A) : ((rrd_skip ze v t0 r).1).capacity = r.capacity := by
  induction r using rrd_skip.induct ze v t0 with
  | case1 r hc f f2 ih =>
      rw [rrd_skip, dif_pos hc]
      simpa [forward] using ih
  | case2 r hc => rw [rrd_skip, dif_neg hc]

theorem rrd_skip_tail_nonneg {A : Type} (ze : CB A) (v : A) (t0 : Nat)
    (r : RRD A) : 0 ≤ r.tail → 0 ≤ ((rrd_skip ze v t0 r).1).tail := by
  induction r using rrd_skip.induct ze v t0 with
  | case1 r hc f f2 ih =>
      intro h
      rw [rrd_skip, dif_pos hc]
      refine ih ?_
      show 0 ≤ (forward r).tail
      simp only [forward]
      split <;> omega
  | case2 r hc => intro h; rwa [rrd_skip, dif_neg hc]

theorem forward_ranges {A : Type} (r : RRD A) (hcap : 0 < r.capacity)
    (ht0 : 0 ≤ r.tail) (ht1 : r.tail < (r.capacity : Int))
    (hh0 : 0 ≤ r.head) (hh1 : r.head < (r.capacity : Int)) :
    0 ≤ (forward r).tail ∧ (forward r).tail < (r.capacity : Int) ∧
    0 ≤ (forward r).head ∧ (forward r).head < (r.capacity : Int) := by
  simp only [forward]
  split <;> split <;> simp_all <;> omega

theorem find_period_mod (t w : Nat) : find_period t w % w = 0 := by
  have hdm := Nat.div_add_mod t w
  have h : find_period t w = w * (t / w) := by unfold find_period; omega
  rw [h]
  exact Nat.mul_mod_right _ _

theorem forward_start_aligned {A : Type} (s : RRD A) (hw : 2 ≤ s.resolution)
    (hal : s.start % s.resolution = 0) :
    (forward s).start = s.start + s.resolution := by
  show find_period (s.start + s.resolution + 1) s.resolution = _
  obtain ⟨b, hb⟩ := Nat.dvd_of_mod_eq_zero hal
  have h1 : s.start + s.resolution + 1 = s.resolution * (b + 1) + 1 := by
    rw [hb]; ring
  have h2 : (s.start + s.resolution + 1) % s.resolution = 1 := by
    rw [h1, Nat.mul_add_mod]
    exact Nat.mod_eq_of_lt (by omega)
  unfold find_period
  omega

theorem forward_step {A : Type} (s : RRD A) (hw : 2 ≤ s.resolution)
    (hal : s.start % s.resolution = 0) (ht0 : 0 ≤ s.tail)
    (ht1 : s.tail < (s.capacity : Int)) (hh0 : 0 ≤ s.head)
    (hh1 : s.head < (s.capacity : Int)) :
    (forward s).tail = (s.tail + 1) % (s.capacity : Int) ∧
    (forward s).head = (if (s.tail + 1) % (s.capacity : Int) = s.head
      then (s.head + 1) % (s.capacity : Int) else s.head) ∧
    (forward s).start = s.start + s.resolution := by
  have htmod : (s.tail + 1) % (s.capacity : Int) =
      if s.tail + 1 ≥ (s.capacity : Int) then 0 else s.tail + 1 := by
    split
    · have h : s.tail + 1 = (s.capacity : Int) := by omega
      rw [h, Int.emod_self]
    · exact Int.emod_eq_of_lt (by omega) (by omega)
  have hhmod : (s.head + 1) % (s.capacity : Int) =
      if s.head + 1 ≥ (s.capacity : Int) then 0 else s.head + 1 := by
    split
    · have h : s.head + 1 = (s.capacity : Int) := by omega
      rw [h, Int.emod_self]
    · exact Int.emod_eq_of_lt (by omega) (by omega)
  refine ⟨?_, ?_, forward_start_aligned s hw hal⟩
  · show (if s.tail + 1 ≥ (s.capacity : Int) then 0 else s.tail + 1) = _
    rw [htmod]
  · show (if (if s.tail + 1 ≥ (s.capacity : Int) then 0 else s.tail + 1) = s.head
        then (if s.head + 1 ≥ (s.capacity : Int) then 0 else s.head + 1)
        else s.head) = _
    rw [← htmod, ← hhmod]

theorem rrd_skip_count {A : Type} (ze : CB A) (v : A) (t0 : Nat) (r : RRD A) :
    2 ≤ r.resolution → r.start % r.resolution = 0 → t0 % r.resolution = 0 →
    ((rrd_skip ze v t0 r).2).length = (t0 - r.start) / r.resolution := by
  induction r using rrd_skip.induct ze v t0 with
  | case1 r hc f f2 ih =>
      intro hw hs ht
      rw [rrd_skip, dif_pos hc]
      have hstep : f2.start = r.start + r.resolution :=
        forward_start_aligned r hw hs
      have hres2 : f2.resolution = r.resolution := rfl
      have hrec := ih (by rw [hres2]; exact hw)
        (by rw [hres2, hstep, Nat.add_mod_right]; exact hs)
        (by rw [hres2]; exact ht)
      show (f :: (rrd_skip ze v t0 f2).2).length = (t0 - r.start) / r.resolution
      simp only [List.length_cons]
      rw [hrec, hres2, hstep]
      obtain ⟨a, ha⟩ := Nat.dvd_of_mod_eq_zero ht
      obtain ⟨b, hb⟩ := Nat.dvd_of_mod_eq_zero hs
      have hba : b < a := by
        have h1 : r.resolution * b < r.resolution * a := by omega
        exact Nat.lt_of_mul_lt_mul_left h1
      obtain ⟨d, hd⟩ : ∃ d, a = b + d + 1 := ⟨a - b - 1, by omega⟩
      subst hd
      have e1 : t0 - (r.start + r.resolution) = r.resolution * d := by
        have : r.resolution * (b + d + 1) =
            r.resolution * b + r.resolution * d + r.resolution := by ring
        omega
      have e2 : t0 - r.start = r.resolution * (d + 1) := by
        have h3 : r.resolution * (b + d + 1) =
            r.resolution * b + r.resolution * (d + 1) := by ring
        have h4 : r.resolution * (d + 1) =
            r.resolution * d + r.resolution := by ring
        omega
      rw [e1, e2, Nat.mul_div_cancel_left d (by omega),
        Nat.mul_div_cancel_left (d + 1) (by omega)]
  | case2 r hc =>
      intro hw hs ht
      rw [rrd_skip, dif_neg hc]
      show ([] : List (RRD A)).length = (t0 - r.start) / r.resolution
      have hnlt : ¬ r.start < t0 := by
        intro h
        exact hc ⟨h, by omega⟩
      have h0 : t0 - r.start = 0 := by omega
      rw [h0, Nat.zero_div, List.length_nil]

theorem rrd_len_pos {A : Type} (r : RRD A) (ht0 : 0 ≤ r.tail)
    (ht1 : r.tail < (r.capacity : Int)) (hh0 : 0 ≤ r.head)
    (hh1 : r.head < (r.capacity : Int)) : 1 ≤ rrd_len r := by
  unfold rrd_len
  split_ifs <;> omega

theorem rrd_len_le_capacity {A : Type} (r : RRD A)
    (ht1 : r.tail < (r.capacity : Int)) (hh0 : 0 ≤ r.head) :
    rrd_len r ≤ r.capacity := by
  unfold rrd_len
  split_ifs <;> omega

theorem rrd_skip_trace_ranges {A : Type} (ze : CB A) (v : A) (t0 : Nat)
    (r : RRD A) :
    0 < r.capacity → 0 ≤ r.tail → r.tail < (r.capacity : Int) →
    0 ≤ r.head → r.head < (r.capacity : Int) →
    ∀ s ∈ (rrd_skip ze v t0 r).2, s.capacity = r.capacity ∧
      0 ≤ s.tail ∧ s.tail < (s.capacity : Int) ∧
      0 ≤ s.head ∧ s.head < (s.capacity : Int) := by
  induction r using rrd_skip.induct ze v t0 with
  | case1 r hc f f2 ih =>
      intro hcap ht0 ht1 hh0 hh1 s hs
      have hf := forward_ranges r hcap ht0 ht1 hh0 hh1
      have hfc : f.capacity = r.capacity := rfl
      rw [rrd_skip, dif_pos hc] at hs
      have hs2 : s ∈ f :: (rrd_skip ze v t0 f2).2 := hs
      rcases List.mem_cons.mp hs2 with h | h
      · subst h
        exact ⟨hfc, hf.1, by rw [hfc]; exact hf.2.1, hf.2.2.1,
          by rw [hfc]; exact hf.2.2.2⟩
      · have := ih (by rw [show f2.capacity = r.capacity from rfl]; exact hcap)
          hf.1 hf.2.1 hf.2.2.1 hf.2.2.2 s h
        exact ⟨this.1, this.2⟩
  | case2 r hc =>
      intro _ _ _ _ _ s hs
      rw [rrd_skip, dif_neg hc] at hs
      simp at hs

theorem rrd_skip_ranges {A : Type} (ze : CB A) (v : A) (t0 : Nat)
    (r : RRD A) :
    0 < r.capacity → 0 ≤ r.tail → r.tail < (r.capacity : Int) →
    0 ≤ r.head → r.head < (r.capacity : Int) →
    0 ≤ ((rrd_skip ze v t0 r).1).tail ∧
      ((rrd_skip ze v t0 r).1).tail < (r.capacity : Int) ∧
      0 ≤ ((rrd_skip ze v t0 r).1).head ∧
      ((rrd_skip ze v t0 r).1).head < (r.capacity : Int) := by
  induction r using rrd_skip.induct ze v t0 with
  | case1 r hc f f2 ih =>
      intro hcap ht0 ht1 hh0 hh1
      have hf := forward_ranges r hcap ht0 ht1 hh0 hh1
      rw [rrd_skip, dif_pos hc]
      show 0 ≤ ((rrd_skip ze v t0 f2).1).tail ∧
        ((rrd_skip ze v t0 f2).1).tail < (r.capacity : Int) ∧
        0 ≤ ((rrd_skip ze v t0 f2).1).head ∧
        ((rrd_skip ze v t0 f2).1).head < (r.capacity : Int)
      exact ih (by rw [show f2.capacity = r.capacity from rfl]; exact hcap)
        hf.1 hf.2.1 hf.2.2.1 hf.2.2.2
  | case2 r hc =>
      intro _ ht0 ht1 hh0 hh1
      rw [rrd_skip, dif_neg hc]
      exact ⟨ht0, ht1, hh0, hh1⟩

/-- C4: a backdated insert (t earlier than the last accepted timestamp)
    on a non-empty ring returns without mutating any part of the ring
    state, for every choice of the update and zero callbacks (so neither
    callback is invoked); it is not an error. -/
theorem rrd_add_at_backdated_noop {A : Type} (r : RRD A) (v : A) (t : Nat)
    (hne : 0 ≤ r.tail) (hlt : t < r.last) :
    ∀ up ze : CB A, rrd_add_at up ze r v t = r := by
  intro up ze
  unfold rrd_add_at
  rw [if_neg (by omega), if_pos hlt]

/-- Witness for rrd_add_at_backdated_noop: a concrete non-empty ring
    with last = 45, insert at t = 3. -/
theorem rrd_add_at_backdated_noop_witness :
    rrd_add_at default_update default_zero
      (⟨"r", 10, 4, [1, 2, 3, 4], 0, 0, 40, 45⟩ : RRD Nat) 9 3 =
      (⟨"r", 10, 4, [1, 2, 3, 4], 0, 0, 40, 45⟩ : RRD Nat) :=
  rrd_add_at_backdated_noop (⟨"r", 10, 4, [1, 2, 3, 4], 0, 0, 40, 45⟩ : RRD Nat)
    9 3 (by decide) (by decide) default_update default_zero

/-- C6: rrd_create returns NULL exactly on allocation failure, and
    otherwise a ring whose head and tail are the empty sentinel -1,
    whose start and last are 0, and whose update and zero callbacks are
    the no-op defaults (the production build's default_update and
    default_zero bodies are `r = r; pv = pv;`). -/
theorem rrd_create_spec {A : Type} (s : String) (res cap : Nat) (junk : A) :
    rrd_create s res cap junk false = (none : Option (RRDF A)) ∧
    rrd_create s res cap junk true =
      some { r := { name := s, resolution := res, capacity := cap,
                    entries := List.replicate cap junk,
                    head := -1, tail := -1, start := 0, last := 0 },
             update := default_update, zero := default_zero } :=
  ⟨rfl, rfl⟩

/-- C2 (amended: width at least 2): for a non-empty ring with
    width-aligned start and an insert at t with last <= t and
    t0 = find_period t width > start, rrd_add_at runs the skip loop and
    then stores the payload at tail and sets start = t0, last = t; the
    zero callback is invoked exactly (t0 - start) / width times; and each
    invocation is preceded by an advance that sets
    tail = (tail + 1) mod capacity, bumps head only on collision with the
    new tail, and increases start by exactly one width. -/
theorem rrd_add_at_gap_fill_spec {A : Type} (r : RRD A) (v : A) (t : Nat)
    (up ze : CB A) (hw : 2 ≤ r.resolution)
    (hal : r.start % r.resolution = 0) (hne : 0 ≤ r.tail)
    (hlast : r.last ≤ t) (hgt : r.start < find_period t r.resolution) :
    rrd_add_at up ze r v t =
      { (rrd_skip ze v (find_period t r.resolution) r).1 with
        entries :=
          ((rrd_skip ze v (find_period t r.resolution) r).1).entries.set
            ((rrd_skip ze v (find_period t r.resolution) r).1).tail.toNat v,
        start := find_period t r.resolution, last := t } ∧
    ((rrd_skip ze v (find_period t r.resolution) r).2).length =
      (find_period t r.resolution - r.start) / r.resolution ∧
    (∀ s : RRD A, 2 ≤ s.resolution → s.start % s.resolution = 0 →
      0 ≤ s.tail → s.tail < (s.capacity : Int) →
      0 ≤ s.head → s.head < (s.capacity : Int) →
      (forward s).tail = (s.tail + 1) % (s.capacity : Int) ∧
      (forward s).head = (if (s.tail + 1) % (s.capacity : Int) = s.head
        then (s.head + 1) % (s.capacity : Int) else s.head) ∧
      (forward s).start = s.start + s.resolution) := by
  refine ⟨?_, ?_, ?_⟩
  · unfold rrd_add_at
    rw [if_neg (by omega), if_neg (by omega), if_neg (by omega)]
    rfl
  · exact rrd_skip_count ze v (find_period t r.resolution) r hw hal
      (find_period_mod t r.resolution)
  · intro s hw2 hal2 ht0 ht1 hh0 hh1
    exact forward_step s hw2 hal2 ht0 ht1 hh0 hh1

/-- Witness for rrd_add_at_gap_fill_spec at a concrete ring of width 10
    with start 20, insert at t = 47. -/
theorem rrd_add_at_gap_fill_spec_witness :
    (2 ≤ (10 : Nat) ∧ (20 : Nat) % 10 = 0 ∧ (0 : Int) ≤ 0 ∧
      (25 : Nat) ≤ 47 ∧ (20 : Nat) < find_period 47 10) ∧
    (rrd_add_at default_update default_zero
        (⟨"r", 10, 3, [0, 0, 0], 0, 0, 20, 25⟩ : RRD Nat) 9 47 =
      { (rrd_skip default_zero 9 (find_period 47 10)
          (⟨"r", 10, 3, [0, 0, 0], 0, 0, 20, 25⟩ : RRD Nat)).1 with
        entries :=
          ((rrd_skip default_zero 9 (find_period 47 10)
            (⟨"r", 10, 3, [0, 0, 0], 0, 0, 20, 25⟩ : RRD Nat)).1).entries.set
            ((rrd_skip default_zero 9 (find_period 47 10)
              (⟨"r", 10, 3, [0, 0, 0], 0, 0, 20, 25⟩ : RRD Nat)).1).tail.toNat 9,
        start := find_period 47 10, last := 47 } ∧
      ((rrd_skip default_zero 9 (find_period 47 10)
          (⟨"r", 10, 3, [0, 0, 0], 0, 0, 20, 25⟩ : RRD Nat)).2).length =
        (find_period 47 10 - 20) / 10 ∧
      (∀ s : RRD Nat, 2 ≤ s.resolution → s.start % s.resolution = 0 →
        0 ≤ s.tail → s.tail < (s.capacity : Int) →
        0 ≤ s.head → s.head < (s.capacity : Int) →
        (forward s).tail = (s.tail + 1) % (s.capacity : Int) ∧
        (forward s).head = (if (s.tail + 1) % (s.capacity : Int) = s.head
          then (s.head + 1) % (s.capacity : Int) else s.head) ∧
        (forward s).start = s.start + s.resolution)) :=
  ⟨by decide,
   rrd_add_at_gap_fill_spec (⟨"r", 10, 3, [0, 0, 0], 0, 0, 20, 25⟩ : RRD Nat)
     9 47 default_update default_zero (by decide) (by decide) (by decide)
     (by decide) (by decide)⟩

/-- Counterexample to C2 as stated: at width 1 (start 0, insert at t = 3,
    so t0 = 3), the advance increases start by 2 rather than one width,
    and the zero callback is invoked 2 times rather than
    (t0 - start) / width = 3 times. -/
theorem rrd_add_at_gap_fill_cex :
    ((rrd_skip (fun (s : RRD Nat) (_ : Nat) => s.entries) 7 (find_period 3 1)
        (⟨"r", 1, 4, [0, 0, 0, 0], 0, 0, 0, 0⟩ : RRD Nat)).2).length = 2 ∧
    (find_period 3 1 - 0) / 1 = 3 ∧
    ((rrd_skip (fun (s : RRD Nat) (_ : Nat) => s.entries) 7 (find_period 3 1)
        (⟨"r", 1, 4, [0, 0, 0, 0], 0, 0, 0, 0⟩ : RRD Nat)).2).length ≠
      (find_period 3 1 - 0) / 1 ∧
    (forward (⟨"r", 1, 4, [0, 0, 0, 0], 0, 0, 0, 0⟩ : RRD Nat)).start = 2 ∧
    (forward (⟨"r", 1, 4, [0, 0, 0, 0], 0, 0, 0, 0⟩ : RRD Nat)).start ≠
      0 + 1 := by
  have h1 : ((rrd_skip (fun (s : RRD Nat) (_ : Nat) => s.entries) 7
      (find_period 3 1)
      (⟨"r", 1, 4, [0, 0, 0, 0], 0, 0, 0, 0⟩ : RRD Nat)).2).length = 2 := by
    rw [rrd_skip, dif_pos (by norm_num [find_period])]
    norm_num [forward, find_period]
    rw [rrd_skip, dif_pos (by norm_num [forward, find_period])]
    norm_num [forward, find_period]
    rw [rrd_skip, dif_neg (by norm_num [forward, find_period])]
    rfl
  refine ⟨h1, by norm_num [find_period], ?_, ?_, ?_⟩
  · rw [h1]; norm_num [find_period]
  · norm_num [forward, find_period]
  · norm_num [forward, find_period]

/-- C9: the zero callback is never invoked on an empty ring: the
    empty-ring insert takes a separate path whose result is independent
    of both callbacks, and every ring state passed to the zero callback
    by the skip loop of rrd_add_at holds at least one bucket with tail a
    valid index, so the carry-forward index tail - 1 (wrapping to
    capacity - 1 when tail is 0, as in txg_zero) lies in [0, capacity). -/
theorem rrd_zero_callback_safety {A : Type} (r : RRD A) (v : A) (t : Nat)
    (ze : CB A) (hcap : 0 < r.capacity) :
    (r.tail < 0 → ∀ up1 ze1 up2 ze2 : CB A,
      rrd_add_at up1 ze1 r v t = rrd_add_at up2 ze2 r v t) ∧
    (0 ≤ r.tail → r.tail < (r.capacity : Int) → 0 ≤ r.head →
      r.head < (r.capacity : Int) →
      ∀ s ∈ (rrd_skip ze v (find_period t r.resolution) r).2,
        1 ≤ rrd_len s ∧ 0 ≤ rrd_tail s ∧
        rrd_tail s < (rrd_capacity s : Int) ∧
        0 ≤ (if rrd_tail s = 0 then (rrd_capacity s : Int) - 1
             else rrd_tail s - 1) ∧
        (if rrd_tail s = 0 then (rrd_capacity s : Int) - 1
         else rrd_tail s - 1) < (rrd_capacity s : Int)) := by
  constructor
  · intro h up1 ze1 up2 ze2
    unfold rrd_add_at
    rw [if_pos h, if_pos h]
  · intro ht0 ht1 hh0 hh1 s hs
    obtain ⟨hscap, hst0, hst1, hsh0, hsh1⟩ :=
      rrd_skip_trace_ranges ze v (find_period t r.resolution) r hcap
        ht0 ht1 hh0 hh1 s hs
    have hlen := rrd_len_pos s hst0 hst1 hsh0 hsh1
    have hscap2 : 0 < s.capacity := by omega
    refine ⟨hlen, hst0, hst1, ?_, ?_⟩
    · unfold rrd_tail rrd_capacity
      split <;> omega
    · unfold rrd_tail rrd_capacity
      split <;> omega

/-- Witness for rrd_zero_callback_safety at a concrete non-empty ring of
    width 2, capacity 3, with start 4, queried by an insert at t = 9. -/
theorem rrd_zero_callback_safety_witness :
    0 < (3 : Nat) ∧
    (((⟨"r", 2, 3, [0, 0, 0], 0, 0, 4, 5⟩ : RRD Nat).tail < 0 →
        ∀ up1 ze1 up2 ze2 : CB Nat,
          rrd_add_at up1 ze1 (⟨"r", 2, 3, [0, 0, 0], 0, 0, 4, 5⟩ : RRD Nat) 6 9 =
          rrd_add_at up2 ze2 (⟨"r", 2, 3, [0, 0, 0], 0, 0, 4, 5⟩ : RRD Nat) 6 9) ∧
      (0 ≤ (⟨"r", 2, 3, [0, 0, 0], 0, 0, 4, 5⟩ : RRD Nat).tail →
        (⟨"r", 2, 3, [0, 0, 0], 0, 0, 4, 5⟩ : RRD Nat).tail <
          ((⟨"r", 2, 3, [0, 0, 0], 0, 0, 4, 5⟩ : RRD Nat).capacity : Int) →
        0 ≤ (⟨"r", 2, 3, [0, 0, 0], 0, 0, 4, 5⟩ : RRD Nat).head →
        (⟨"r", 2, 3, [0, 0, 0], 0, 0, 4, 5⟩ : RRD Nat).head <
          ((⟨"r", 2, 3, [0, 0, 0], 0, 0, 4, 5⟩ : RRD Nat).capacity : Int) →
        ∀ s ∈ (rrd_skip default_zero 6
            (find_period 9
              (⟨"r", 2, 3, [0, 0, 0], 0, 0, 4, 5⟩ : RRD Nat).resolution)
            (⟨"r", 2, 3, [0, 0, 0], 0, 0, 4, 5⟩ : RRD Nat)).2,
          1 ≤ rrd_len s ∧ 0 ≤ rrd_tail s ∧
          rrd_tail s < (rrd_capacity s : Int) ∧
          0 ≤ (if rrd_tail s = 0 then (rrd_capacity s : Int) - 1
               else rrd_tail s - 1) ∧
          (if rrd_tail s = 0 then (rrd_capacity s : Int) - 1
           else rrd_tail s - 1) < (rrd_capacity s : Int))) :=
  ⟨by decide,
   rrd_zero_callback_safety (⟨"r", 2, 3, [0, 0, 0], 0, 0, 4, 5⟩ : RRD Nat)
     6 9 default_zero (by decide)⟩

/-- C8: inserting the same (t, v) twice with a keep-first (no-op) update
    callback leaves the ring state (head, tail, start, last and all
    bucket contents) identical to a single insert, for every starting
    ring state and every zero callback. -/
theorem rrd_add_at_keep_first_idempotent {A : Type} (r : RRD A) (v : A)
    (t : Nat) (ze : CB A) :
    rrd_add_at (fun s _ => s.entries) ze
        (rrd_add_at (fun s _ => s.entries) ze r v t) v t =
      rrd_add_at (fun s _ => s.entries) ze r v t := by
  by_cases h1 : r.tail < 0
  · have hr1 : rrd_add_at (fun s _ => s.entries) ze r v t =
        { r with head := 0, tail := 0,
                 entries := r.entries.set 0 v,
                 start := find_period t r.resolution, last := t } := by
      unfold rrd_add_at
      rw [if_pos h1]
      simp [rrd_store]
    rw [hr1]
    unfold rrd_add_at
    simp
  · by_cases h2 : t < r.last
    · have hr1 : rrd_add_at (fun s _ => s.entries) ze r v t = r := by
        unfold rrd_add_at
        rw [if_neg h1, if_pos h2]
      rw [hr1, hr1]
    · by_cases h3 : find_period t r.resolution = r.start
      · have hr1 : rrd_add_at (fun s _ => s.entries) ze r v t =
            { r with start := find_period t r.resolution, last := t } := by
          unfold rrd_add_at
          rw [if_neg h1, if_neg h2, if_pos h3]
        rw [hr1]
        unfold rrd_add_at
        simp [h1]
      · have hr1 : rrd_add_at (fun s _ => s.entries) ze r v t =
            { (rrd_skip ze v (find_period t r.resolution) r).1 with
              entries :=
                ((rrd_skip ze v (find_period t r.resolution) r).1).entries.set
                  ((rrd_skip ze v (find_period t r.resolution) r).1).tail.toNat v,
              start := find_period t r.resolution, last := t } := by
          unfold rrd_add_at
          rw [if_neg h1, if_neg h2, if_neg h3]
          rfl
        rw [hr1]
        unfold rrd_add_at
        have hres := rrd_skip_resolution ze v (find_period t r.resolution) r
        have htl := rrd_skip_tail_nonneg ze v (find_period t r.resolution) r
          (by omega)
        simp [hres]
        omega

theorem dbrrd_go_success {A : Type} (nm : String) (junk : A) (up ze : CB A)
    (alloc : Nat → Bool) :
    ∀ (specs : List (Nat × Nat)) (k : Nat) (h : List (RRDF A)),
    (∀ j, j < (specs.takeWhile (fun p => p.2 ≠ 0)).length →
      alloc (k + j) = true) →
    dbrrd_go nm junk up ze alloc k specs h =
      (some ((((specs.takeWhile (fun p => p.2 ≠ 0)).map
        (fun p => ({ r := rrd_fresh nm p.1 p.2 junk, update := up,
                     zero := ze } : RRDF A))).reverse) ++ h), []) := by
  intro specs
  induction specs with
  | nil => intro k h _; simp [dbrrd_go]
  | cons hd rest ih =>
      intro k h hal
      obtain ⟨w, cap⟩ := hd
      by_cases hcap : cap = 0
      · subst hcap
        simp [dbrrd_go, List.takeWhile]
      · have htw : ((w, cap) :: rest).takeWhile (fun p => p.2 ≠ 0) =
            (w, cap) :: rest.takeWhile (fun p => p.2 ≠ 0) := by
          simp [List.takeWhile, hcap]
        have hal0 : alloc k = true := by
          have := hal 0 (by rw [htw, List.length_cons]; omega)
          simpa using this
        have halrest : ∀ j, j < (rest.takeWhile (fun p => p.2 ≠ 0)).length →
            alloc (k + 1 + j) = true := by
          intro j hj
          have := hal (j + 1) (by rw [htw, List.length_cons]; omega)
          rw [show k + (j + 1) = k + 1 + j by omega] at this
          exact this
        have step : dbrrd_go nm junk up ze alloc k ((w, cap) :: rest) h =
            dbrrd_go nm junk up ze alloc (k + 1) rest
              ((⟨rrd_fresh nm w cap junk, up, ze⟩ : RRDF A) :: h) := by
          simp [dbrrd_go, hcap, rrd_create, hal0, rrd_setfunctions]
        rw [step, ih (k + 1) _ halrest, htw]
        simp

theorem dbrrd_go_failure {A : Type} (nm : String) (junk : A) (up ze : CB A)
    (alloc : Nat → Bool) :
    ∀ (specs : List (Nat × Nat)) (k : Nat) (h : List (RRDF A)) (j : Nat),
    j < (specs.takeWhile (fun p => p.2 ≠ 0)).length →
    (∀ i, i < j → alloc (k + i) = true) → alloc (k + j) = false →
    dbrrd_go nm junk up ze alloc k specs h =
      (none, ((((specs.takeWhile (fun p => p.2 ≠ 0)).take j).map
        (fun p => ({ r := rrd_fresh nm p.1 p.2 junk, update := up,
                     zero := ze } : RRDF A))).reverse) ++ h) := by
  intro specs
  induction specs with
  | nil => intro k h j hj _ _; simp at hj
  | cons hd rest ih =>
      intro k h j hj hok hfail
      obtain ⟨w, cap⟩ := hd
      by_cases hcap : cap = 0
      · subst hcap
        simp [List.takeWhile] at hj
      · have htw : ((w, cap) :: rest).takeWhile (fun p => p.2 ≠ 0) =
            (w, cap) :: rest.takeWhile (fun p => p.2 ≠ 0) := by
          simp [List.takeWhile, hcap]
        match j with
        | 0 =>
          have h0 : alloc k = false := by simpa using hfail
          simp [dbrrd_go, hcap, rrd_create, h0, htw]
        | j' + 1 =>
          have hal0 : alloc k = true := by
            have := hok 0 (by omega)
            simpa using this
          have hokrest : ∀ i, i < j' → alloc (k + 1 + i) = true := by
            intro i hi
            have := hok (i + 1) (by omega)
            rw [show k + (i + 1) = k + 1 + i by omega] at this
            exact this
          have hfailrest : alloc (k + 1 + j') = false := by
            rw [show k + 1 + j' = k + (j' + 1) by omega]
            exact hfail
          have hjrest : j' < (rest.takeWhile (fun p => p.2 ≠ 0)).length := by
            rw [htw, List.length_cons] at hj
            omega
          have step : dbrrd_go nm junk up ze alloc k ((w, cap) :: rest) h =
              dbrrd_go nm junk up ze alloc (k + 1) rest
                ((⟨rrd_fresh nm w cap junk, up, ze⟩ : RRDF A) :: h) := by
            simp [dbrrd_go, hcap, rrd_create, hal0, rrd_setfunctions]
          rw [step, ih (k + 1) _ j' hjrest hokrest hfailrest, htw]
          simp

/-- C7: dbrrd_create scans the spec array up to the zero-capacity
    sentinel and either returns the rings linked in the opposite order
    (so that with descending spec widths the head is the finest ring and
    widths strictly increase along the list), all rings sharing the same
    update/zero callback pair, or, when the j-th allocation fails, tears
    down exactly the rings created before the failure and returns NULL. -/
theorem dbrrd_create_spec {A : Type} (nm : String) (specs : List (Nat × Nat))
    (junk : A) (up ze : CB A) (alloc : Nat → Bool) :
    ((∀ j, j < (specs.takeWhile (fun p => p.2 ≠ 0)).length → alloc j = true) →
      dbrrd_create nm specs junk up ze alloc =
        (some (((specs.takeWhile (fun p => p.2 ≠ 0)).map
          (fun p => (⟨rrd_fresh nm p.1 p.2 junk, up, ze⟩ : RRDF A))).reverse),
         []) ∧
      (∀ rf ∈ ((specs.takeWhile (fun p => p.2 ≠ 0)).map
          (fun p => (⟨rrd_fresh nm p.1 p.2 junk, up, ze⟩ : RRDF A))).reverse,
        rf.update = up ∧ rf.zero = ze) ∧
      ((specs.takeWhile (fun p => p.2 ≠ 0)).Pairwise (fun p q => q.1 < p.1) →
        ((((specs.takeWhile (fun p => p.2 ≠ 0)).map
          (fun p => (⟨rrd_fresh nm p.1 p.2 junk, up, ze⟩ : RRDF A))).reverse).map
            (fun rf => rf.r.resolution)).Pairwise (· < ·))) ∧
    (∀ j, j < (specs.takeWhile (fun p => p.2 ≠ 0)).length →
      (∀ i, i < j → alloc i = true) → alloc j = false →
      dbrrd_create nm specs junk up ze alloc =
        (none, (((specs.takeWhile (fun p => p.2 ≠ 0)).take j).map
          (fun p => (⟨rrd_fresh nm p.1 p.2 junk, up, ze⟩ : RRDF A))).reverse)) := by
  constructor
  · intro hsucc
    refine ⟨?_, ?_, ?_⟩
    · have h := dbrrd_go_success nm junk up ze alloc specs 0 []
        (by intro j hj; rw [Nat.zero_add]; exact hsucc j hj)
      unfold dbrrd_create
      rw [h, List.append_nil]
    · intro rf hrf
      rw [List.mem_reverse, List.mem_map] at hrf
      obtain ⟨p, _, rfl⟩ := hrf
      exact ⟨rfl, rfl⟩
    · intro hsort
      rw [List.map_reverse, List.map_map, List.pairwise_reverse,
        List.pairwise_map]
      exact hsort
  · intro j hj hok hfail
    have h := dbrrd_go_failure nm junk up ze alloc specs 0 [] j hj
      (by intro i hi; rw [Nat.zero_add]; exact hok i hi)
      (by rw [Nat.zero_add]; exact hfail)
    unfold dbrrd_create
    rw [h, List.append_nil]

/-- Witness for dbrrd_create_spec: the spec array [(100,2),(10,3),(0,0)]
    (descending widths, zero-capacity sentinel) with an always-succeeding
    allocator. -/
theorem dbrrd_create_spec_witness :
    (∀ j, j < (([(100, 2), (10, 3), (0, 0)] : List (Nat × Nat)).takeWhile
        (fun p => p.2 ≠ 0)).length → (fun _ : Nat => true) j = true) ∧
    (dbrrd_create "s" ([(100, 2), (10, 3), (0, 0)] : List (Nat × Nat)) (0 : Nat)
        default_update default_zero (fun _ => true) =
      (some ((([(100, 2), (10, 3), (0, 0)] : List (Nat × Nat)).takeWhile
          (fun p => p.2 ≠ 0)).map
        (fun p => (⟨rrd_fresh "s" p.1 p.2 (0 : Nat), default_update,
                    default_zero⟩ : RRDF Nat))).reverse, []) ∧
      (∀ rf ∈ ((([(100, 2), (10, 3), (0, 0)] : List (Nat × Nat)).takeWhile
          (fun p => p.2 ≠ 0)).map
        (fun p => (⟨rrd_fresh "s" p.1 p.2 (0 : Nat), default_update,
                    default_zero⟩ : RRDF Nat))).reverse,
        rf.update = default_update ∧ rf.zero = default_zero) ∧
      ((([(100, 2), (10, 3), (0, 0)] : List (Nat × Nat)).takeWhile
          (fun p => p.2 ≠ 0)).Pairwise (fun p q => q.1 < p.1) →
        ((((([(100, 2), (10, 3), (0, 0)] : List (Nat × Nat)).takeWhile
            (fun p => p.2 ≠ 0)).map
          (fun p => (⟨rrd_fresh "s" p.1 p.2 (0 : Nat), default_update,
                      default_zero⟩ : RRDF Nat))).reverse).map
            (fun rf => rf.r.resolution)).Pairwise (· < ·))) :=
  ⟨by decide,
   (dbrrd_create_spec "s" ([(100, 2), (10, 3), (0, 0)] : List (Nat × Nat)) 0
     default_update default_zero (fun _ => true)).1 (by decide)⟩

theorem find_period_le (t w : Nat) : find_period t w ≤ t :=
  Nat.sub_le _ _

theorem find_period_gap (t w : Nat) (hw : 0 < w) : t - find_period t w < w := by
  have := Nat.mod_lt t hw
  unfold find_period
  omega

theorem rrdInv_step {A : Type} (up ze : CB A) (w cap : Nat) (hw : 0 < w)
    (hcap : 0 < cap) (r : RRD A) (hinv : rrdInv w cap r) (v : A) (t : Nat) :
    rrdInv w cap (rrd_add_at up ze r v t) := by
  obtain ⟨hres, hcapeq, hht, hal, hlb⟩ := hinv
  have hfpm : find_period t r.resolution % w = 0 := by
    rw [hres]; exact find_period_mod t w
  have hfple := find_period_le t r.resolution
  have hfpgap : t - find_period t r.resolution < w := by
    rw [hres]; exact find_period_gap t w hw
  unfold rrd_add_at
  by_cases h1 : r.tail < 0
  · rw [if_pos h1]
    refine ⟨hres, hcapeq, Or.inr ?_, hfpm, ?_⟩
    · refine ⟨?_, ?_, ?_, ?_⟩ <;> simp [rrd_store] <;> omega
    · intro _
      constructor
      · show find_period t r.resolution ≤ t
        exact hfple
      · show t - find_period t r.resolution < w
        exact hfpgap
  · rw [if_neg h1]
    have hht2 : 0 ≤ r.head ∧ r.head < (cap : Int) ∧
        0 ≤ r.tail ∧ r.tail < (cap : Int) := by
      rcases hht with h | h
      · exact absurd h.2 (by omega)
      · exact h
    by_cases h2 : t < r.last
    · rw [if_pos h2]
      exact ⟨hres, hcapeq, hht, hal, hlb⟩
    · rw [if_neg h2]
      by_cases h3 : find_period t r.resolution = r.start
      · rw [if_pos h3]
        exact ⟨hres, hcapeq, Or.inr hht2, hfpm, fun _ => ⟨hfple, hfpgap⟩⟩
      · rw [if_neg h3]
        have hsk := rrd_skip_ranges ze v (find_period t r.resolution) r
          (by omega) (by omega) (by rw [hcapeq]; exact hht2.2.2.2)
          hht2.1 (by rw [hcapeq]; exact hht2.2.1)
        have hskc := rrd_skip_capacity ze v (find_period t r.resolution) r
        have hskr := rrd_skip_resolution ze v (find_period t r.resolution) r
        refine ⟨?_, ?_, Or.inr ?_, ?_, ?_⟩
        · show ((rrd_skip ze v (find_period t r.resolution) r).1).resolution = w
          rw [hskr]; exact hres
        · show ((rrd_skip ze v (find_period t r.resolution) r).1).capacity = cap
          rw [hskc]; exact hcapeq
        · show 0 ≤ ((rrd_skip ze v (find_period t r.resolution) r).1).head ∧ _
          refine ⟨hsk.2.2.1, ?_, hsk.1, ?_⟩
          · rw [← hcapeq]; exact hsk.2.2.2
          · rw [← hcapeq]; exact hsk.2.1
        · exact hfpm
        · exact fun _ => ⟨hfple, hfpgap⟩

/-- C3: in every ring state reachable from a freshly created ring (width
    res > 0, capacity cap > 0) by any sequence of rrd_add_at operations,
    the length computed by rrd_len lies in [0, cap], start is
    width-aligned, and when the ring is non-empty last - start lies in
    [0, res). -/
theorem rrd_reachable_invariants {A : Type} (up ze : CB A) (nm : String)
    (res cap : Nat) (junk : A) (hw : 0 < res) (hcap : 0 < cap) (r : RRD A)
    (hr : rrdReachable up ze nm res cap junk r) :
    rrd_len r ≤ cap ∧ r.start % res = 0 ∧
    (0 ≤ r.tail → r.start ≤ r.last ∧ r.last - r.start < res) := by
  have hinv : rrdInv res cap r := by
    induction hr with
    | base =>
        refine ⟨rfl, rfl, Or.inl ⟨rfl, rfl⟩, ?_, ?_⟩
        · show (0 : Nat) % res = 0
          exact Nat.zero_mod res
        · intro h
          have h2 : (0 : Int) ≤ -1 := h
          omega
    | step r v t hr ih => exact rrdInv_step up ze res cap hw hcap r ih v t
  obtain ⟨hres, hcapeq, hht, hal, hlb⟩ := hinv
  refine ⟨?_, hal, hlb⟩
  rcases hht with h | h
  · unfold rrd_len
    rw [if_pos (by omega)]
    omega
  · have := rrd_len_le_capacity r (by rw [hcapeq]; exact h.2.2.2) h.1
    omega

/-- Witness for rrd_reachable_invariants: a fresh ring of width 2 and
    capacity 3 after two inserts at t = 5 (first fills the empty ring,
    the second lands in the active bucket). -/
theorem rrd_reachable_invariants_witness :
    (0 < 2 ∧ 0 < 3) ∧
    (rrd_len (rrd_add_at default_update default_zero
        (rrd_add_at default_update default_zero
          (rrd_fresh "w" 2 3 (0 : Nat)) 5 5) 7 5) ≤ 3 ∧
      (rrd_add_at default_update default_zero
        (rrd_add_at default_update default_zero
          (rrd_fresh "w" 2 3 (0 : Nat)) 5 5) 7 5).start % 2 = 0 ∧
      (0 ≤ (rrd_add_at default_update default_zero
          (rrd_add_at default_update default_zero
            (rrd_fresh "w" 2 3 (0 : Nat)) 5 5) 7 5).tail →
        (rrd_add_at default_update default_zero
          (rrd_add_at default_update default_zero
            (rrd_fresh "w" 2 3 (0 : Nat)) 5 5) 7 5).start ≤
          (rrd_add_at default_update default_zero
            (rrd_add_at default_update default_zero
              (rrd_fresh "w" 2 3 (0 : Nat)) 5 5) 7 5).last ∧
        (rrd_add_at default_update default_zero
          (rrd_add_at default_update default_zero
            (rrd_fresh "w" 2 3 (0 : Nat)) 5 5) 7 5).last -
          (rrd_add_at default_update default_zero
            (rrd_add_at default_update default_zero
              (rrd_fresh "w" 2 3 (0 : Nat)) 5 5) 7 5).start < 2)) :=
  ⟨⟨by decide, by decide⟩,
   rrd_reachable_invariants default_update default_zero "w" 2 3 0
     (by decide) (by decide) _
     (rrdReachable.step _ 7 5 (rrdReachable.step _ 5 5 rrdReachable.base))⟩

theorem dbrrd_go_fresh {A : Type} (nm : String) (junk : A) (up ze : CB A)
    (alloc : Nat → Bool) :
    ∀ (specs : List (Nat × Nat)) (k : Nat) (h : List (RRDF A))
      (rfs : List (RRDF A)),
    (dbrrd_go nm junk up ze alloc k specs h).1 = some rfs →
    (∀ rf ∈ h, rf.r.last = 0 ∧ rf.r.tail = -1) →
    ∀ rf ∈ rfs, rf.r.last = 0 ∧ rf.r.tail = -1 := by
  intro specs
  induction specs with
  | nil =>
      intro k h rfs heq hh
      simp [dbrrd_go] at heq
      subst heq
      exact hh
  | cons hd rest ih =>
      intro k h rfs heq hh
      obtain ⟨w, cap⟩ := hd
      by_cases hcap : cap = 0
      · subst hcap
        simp [dbrrd_go] at heq
        subst heq
        exact hh
      · by_cases hak : alloc k = true
        · rw [show dbrrd_go nm junk up ze alloc k ((w, cap) :: rest) h =
              dbrrd_go nm junk up ze alloc (k + 1) rest
                ((⟨rrd_fresh nm w cap junk, up, ze⟩ : RRDF A) :: h) from by
            simp [dbrrd_go, hcap, rrd_create, hak, rrd_setfunctions]] at heq
          refine ih (k + 1) _ rfs heq ?_
          intro rf hrf
          rcases List.mem_cons.mp hrf with h1 | h1
          · subst h1
            exact ⟨rfl, rfl⟩
          · exact hh rf h1
        · rw [show (dbrrd_go nm junk up ze alloc k ((w, cap) :: rest) h).1 =
              none from by
            simp [dbrrd_go, hcap, rrd_create, hak]] at heq
          exact absurd heq (by simp)

theorem rrd_add_at_last_eq {A : Type} (up ze : CB A) (r : RRD A) (v : A)
    (t : Nat) : (rrd_add_at up ze r v t).last =
      if r.tail < 0 then t else if t < r.last then r.last else t := by
  unfold rrd_add_at
  by_cases h1 : r.tail < 0
  · rw [if_pos h1, if_pos h1]
  · rw [if_neg h1, if_neg h1]
    by_cases h2 : t < r.last
    · rw [if_pos h2, if_pos h2]
    · rw [if_neg h2, if_neg h2]
      by_cases h3 : find_period t r.resolution = r.start
      · rw [if_pos h3]
      · rw [if_neg h3]

theorem rrd_add_at_tail_nonneg {A : Type} (up ze : CB A) (r : RRD A) (v : A)
    (t : Nat) : 0 ≤ (rrd_add_at up ze r v t).tail := by
  unfold rrd_add_at
  by_cases h1 : r.tail < 0
  · rw [if_pos h1]
    show (0 : Int) ≤ 0
    omega
  · rw [if_neg h1]
    by_cases h2 : t < r.last
    · rw [if_pos h2]; omega
    · rw [if_neg h2]
      by_cases h3 : find_period t r.resolution = r.start
      · rw [if_pos h3]
        show 0 ≤ r.tail
        omega
      · rw [if_neg h3]
        show 0 ≤ ((rrd_skip ze v (find_period t r.resolution) r).1).tail
        exact rrd_skip_tail_nonneg ze v (find_period t r.resolution) r
          (by omega)

/-- C10: in every stack reachable from dbrrd_create by dbrrd_add_at
    fan-outs, all rings hold the same last value and are simultaneously
    all empty or all non-empty, which makes the future and emptiness
    checks dbrrd_query performs on the finest ring alone sound for the
    whole stack. -/
theorem dbrrd_parallel_invariant {A : Type} (up ze : CB A)
    (rs : List (RRD A)) (h : dbrrdReachable up ze rs) :
    ∀ r1 ∈ rs, ∀ r2 ∈ rs, r1.last = r2.last ∧
      (r1.tail < 0 ↔ r2.tail < 0) := by
  induction h with
  | created nm specs junk alloc rfs hc =>
      intro r1 h1 r2 h2
      rw [List.mem_map] at h1 h2
      obtain ⟨rf1, hrf1, rfl⟩ := h1
      obtain ⟨rf2, hrf2, rfl⟩ := h2
      have hf := dbrrd_go_fresh nm junk up ze alloc specs 0 [] rfs hc
        (by intro rf hrf; simp at hrf)
      have g1 := hf rf1 hrf1
      have g2 := hf rf2 hrf2
      refine ⟨by rw [g1.1, g2.1], ?_⟩
      rw [g1.2, g2.2]
  | add rs v t hr ih =>
      intro r1 h1 r2 h2
      rw [dbrrd_add_at, List.mem_map] at h1 h2
      obtain ⟨s1, hs1, rfl⟩ := h1
      obtain ⟨s2, hs2, rfl⟩ := h2
      have hp := ih s1 hs1 s2 hs2
      constructor
      · rw [rrd_add_at_last_eq, rrd_add_at_last_eq, hp.1]
        by_cases he : s1.tail < 0
        · rw [if_pos he, if_pos (hp.2.mp he)]
        · rw [if_neg he, if_neg (fun hh => he (hp.2.mpr hh))]
      · have g1 := rrd_add_at_tail_nonneg up ze s1 v t
        have g2 := rrd_add_at_tail_nonneg up ze s2 v t
        constructor <;> intro hh <;> omega

/-- Witness for dbrrd_parallel_invariant: in the stack created from
    specs [(10, 2), (1, 3)] (descending widths, zero-capacity sentinel),
    after one fan-out insert of value 7 at t = 5, the two rings hold the
    same last value and the same emptiness. -/
theorem dbrrd_parallel_invariant_witness :
    (rrd_add_at default_update default_zero
        (rrd_fresh "s" 1 3 (0 : Nat)) 7 5).last =
      (rrd_add_at default_update default_zero
        (rrd_fresh "s" 10 2 (0 : Nat)) 7 5).last ∧
    ((rrd_add_at default_update default_zero
        (rrd_fresh "s" 1 3 (0 : Nat)) 7 5).tail < 0 ↔
      (rrd_add_at default_update default_zero
        (rrd_fresh "s" 10 2 (0 : Nat)) 7 5).tail < 0) :=
  dbrrd_parallel_invariant default_update default_zero _
    (dbrrdReachable.add _ 7 5
      (dbrrdReachable.created "s" [(10, 2), (1, 3), (0, 0)] 0
        (fun _ => true)
        [⟨rrd_fresh "s" 1 3 (0 : Nat), default_update, default_zero⟩,
         ⟨rrd_fresh "s" 10 2 (0 : Nat), default_update, default_zero⟩]
        rfl))
    (rrd_add_at default_update default_zero (rrd_fresh "s" 1 3 (0 : Nat)) 7 5)
    (by decide)
    (rrd_add_at default_update default_zero (rrd_fresh "s" 10 2 (0 : Nat)) 7 5)
    (by decide)

theorem horizonLow_eq {A : Type} (r : RRD A) (hwf : ringWF r) :
    horizonLow r =
      (r.start : Int) - (r.resolution : Int) * ((rrd_len r : Int) - 1) := by
  obtain ⟨hw, hcap, hcap32, hel, hal, hh0, hh1, ht0, ht1, hsl, hls⟩ := hwf
  have hlen1 : 1 ≤ rrd_len r := rrd_len_pos r ht0 ht1 hh0 hh1
  have hlenc : rrd_len r ≤ r.capacity := rrd_len_le_capacity r ht1 hh0
  have hm1 : len_minus_one_u32 (rrd_len r) = rrd_len r - 1 := by
    unfold len_minus_one_u32
    omega
  unfold horizonLow
  rw [hm1]
  have hcast : ((rrd_len r - 1 : Nat) : Int) = (rrd_len r : Int) - 1 := by
    omega
  rw [hcast]

theorem find_period_mul (t w : Nat) :
    find_period t w = w * (t / w) := by
  have := Nat.div_add_mod t w
  unfold find_period
  omega

theorem query_check_iff {A : Type} (r : RRD A) (t : Nat) (hwf : ringWF r)
    (hup : (t : Int) < (r.start : Int) + (r.resolution : Int)) :
    (((find_period t r.resolution : Nat) : Int) ≥ horizonLow r ↔ Covers r t) := by
  have hhl := horizonLow_eq r hwf
  obtain ⟨hw, hcap, hcap32, hel, hal, hh0, hh1, ht0, ht1, hsl, hls⟩ := hwf
  obtain ⟨a, ha⟩ := Nat.dvd_of_mod_eq_zero hal
  have hle : find_period t r.resolution ≤ t := find_period_le t r.resolution
  have hgap : t - find_period t r.resolution < r.resolution :=
    find_period_gap t r.resolution hw
  constructor
  · intro hc
    refine ⟨?_, hup⟩
    have hle2 : ((find_period t r.resolution : Nat) : Int) ≤ (t : Int) := by
      exact_mod_cast hle
    omega
  · intro hcov
    by_contra hlt
    push_neg at hlt
    have hwpos : (0 : Int) < (r.resolution : Int) := by exact_mod_cast hw
    have hsa : (r.start : Int) = (r.resolution : Int) * (a : Int) := by
      exact_mod_cast ha
    have hk : horizonLow r =
        (r.resolution : Int) * ((a : Int) - ((rrd_len r : Int) - 1)) := by
      rw [hhl, hsa]; ring
    have ht0m : ((find_period t r.resolution : Nat) : Int) =
        (r.resolution : Int) * ((t / r.resolution : Nat) : Int) := by
      exact_mod_cast find_period_mul t r.resolution
    have hmk : ((t / r.resolution : Nat) : Int) <
        (a : Int) - ((rrd_len r : Int) - 1) := by
      have h2 : (r.resolution : Int) * ((t / r.resolution : Nat) : Int) <
          (r.resolution : Int) * ((a : Int) - ((rrd_len r : Int) - 1)) := by
        rw [← ht0m, ← hk]; exact hlt
      exact lt_of_mul_lt_mul_left h2 (le_of_lt hwpos)
    have h3 : (r.resolution : Int) * (((t / r.resolution : Nat) : Int) + 1) ≤
        (r.resolution : Int) * ((a : Int) - ((rrd_len r : Int) - 1)) := by
      apply mul_le_mul_of_nonneg_left (by omega) (le_of_lt hwpos)
    have h4 : (t : Int) <
        (r.resolution : Int) * ((t / r.resolution : Nat) : Int) +
          (r.resolution : Int) := by
      have hg2 : (t : Int) - ((find_period t r.resolution : Nat) : Int) <
          (r.resolution : Int) := by
        have hle2 : find_period t r.resolution ≤ t := hle
        exact_mod_cast hgap
      rw [ht0m] at hg2
      omega
    have h5 : horizonLow r ≤ (t : Int) := hcov.1
    rw [hk] at h5
    have h6 : (r.resolution : Int) * (((t / r.resolution : Nat) : Int) + 1) =
        (r.resolution : Int) * ((t / r.resolution : Nat) : Int) +
          (r.resolution : Int) := by ring
    omega

theorem rrd_get_isSome {A : Type} (r : RRD A) (i : Int)
    (hel : r.entries.length = r.capacity)
    (hh0 : 0 ≤ r.head) (hh1 : r.head < (r.capacity : Int))
    (hlenc : rrd_len r ≤ r.capacity)
    (hi0 : 0 ≤ i) (hilen : i < (rrd_len r : Int)) :
    (rrd_get r i).isSome = true := by
  unfold rrd_get
  rw [if_neg (by push_neg; constructor <;> omega)]
  split
  · have hlt : (r.head + i - (r.capacity : Int)).toNat < r.entries.length := by
      omega
    rw [List.getElem?_eq_getElem hlt]
    rfl
  · have hlt : (r.head + i).toNat < r.entries.length := by
      omega
    rw [List.getElem?_eq_getElem hlt]
    rfl

theorem query_hit_index {A : Type} (r : RRD A) (t : Nat) (hwf : ringWF r)
    (hup : (t : Int) < (r.start : Int) + (r.resolution : Int))
    (hcov : Covers r t) :
    0 ≤ queryIndex r t ∧ queryIndex r t < (rrd_len r : Int) ∧
    (rrd_get r (queryIndex r t)).isSome = true := by
  have hhl := horizonLow_eq r hwf
  have hch : ((find_period t r.resolution : Nat) : Int) ≥ horizonLow r :=
    (query_check_iff r t hwf hup).mpr hcov
  obtain ⟨hw, hcap, hcap32, hel, hal, hh0, hh1, ht0, ht1, hsl, hls⟩ := hwf
  obtain ⟨a, ha⟩ := Nat.dvd_of_mod_eq_zero hal
  have hlen1 : 1 ≤ rrd_len r := rrd_len_pos r ht0 ht1 hh0 hh1
  have hlenc : rrd_len r ≤ r.capacity := rrd_len_le_capacity r ht1 hh0
  have hwpos : (0 : Int) < (r.resolution : Int) := by exact_mod_cast hw
  have hwne : (r.resolution : Int) ≠ 0 := by omega
  have hsa : (r.start : Int) = (r.resolution : Int) * (a : Int) := by
    exact_mod_cast ha
  have hk : horizonLow r =
      (r.resolution : Int) * ((a : Int) - ((rrd_len r : Int) - 1)) := by
    rw [hhl, hsa]; ring
  have ht0m : ((find_period t r.resolution : Nat) : Int) =
      (r.resolution : Int) * ((t / r.resolution : Nat) : Int) := by
    exact_mod_cast find_period_mul t r.resolution
  have hle : ((find_period t r.resolution : Nat) : Int) ≤ (t : Int) := by
    exact_mod_cast find_period_le t r.resolution
  -- t0 <= start: m <= a
  have hma : ((t / r.resolution : Nat) : Int) ≤ (a : Int) := by
    by_contra hgt
    push_neg at hgt
    have h2 : (a : Int) + 1 ≤ ((t / r.resolution : Nat) : Int) := by omega
    have h3 : (r.resolution : Int) * ((a : Int) + 1) ≤
        (r.resolution : Int) * ((t / r.resolution : Nat) : Int) := by
      apply mul_le_mul_of_nonneg_left h2 (le_of_lt hwpos)
    have h4 : (r.resolution : Int) * ((a : Int) + 1) =
        (r.resolution : Int) * (a : Int) + (r.resolution : Int) := by ring
    omega
  have hkm : (a : Int) - ((rrd_len r : Int) - 1) ≤
      ((t / r.resolution : Nat) : Int) := by
    have h2 : (r.resolution : Int) * ((a : Int) - ((rrd_len r : Int) - 1)) ≤
        (r.resolution : Int) * ((t / r.resolution : Nat) : Int) := by
      rw [← hk, ← ht0m]; exact hch
    exact le_of_mul_le_mul_left h2 hwpos
  have hqi : queryIndex r t =
      ((t / r.resolution : Nat) : Int) -
        ((a : Int) - ((rrd_len r : Int) - 1)) := by
    unfold queryIndex
    rw [hk, ht0m]
    have h2 : (r.resolution : Int) * ((t / r.resolution : Nat) : Int) -
        (r.resolution : Int) * ((a : Int) - ((rrd_len r : Int) - 1)) =
        (r.resolution : Int) * (((t / r.resolution : Nat) : Int) -
          ((a : Int) - ((rrd_len r : Int) - 1))) := by ring
    rw [h2]
    exact Int.mul_tdiv_cancel_left _ hwne
  have g1 : (0 : Int) ≤ ((t / r.resolution : Nat) : Int) -
      ((a : Int) - ((rrd_len r : Int) - 1)) := Int.sub_nonneg.mpr hkm
  have h6 := Int.sub_le_sub_right hma ((a : Int) - ((rrd_len r : Int) - 1))
  have h7 : (a : Int) - ((a : Int) - ((rrd_len r : Int) - 1)) =
      (rrd_len r : Int) - 1 := by ring
  rw [h7] at h6
  have g2 : ((t / r.resolution : Nat) : Int) -
      ((a : Int) - ((rrd_len r : Int) - 1)) < (rrd_len r : Int) :=
    lt_of_le_of_lt h6 (sub_one_lt _)
  rw [hqi]
  exact ⟨g1, g2, rrd_get_isSome r _ hel hh0 hh1 hlenc g1 g2⟩

theorem dbrrd_query_loop_none {A : Type} (t L : Nat) :
    ∀ rs : List (RRD A), (∀ r ∈ rs, ringWF r ∧ r.last = L) → t ≤ L →
    (∀ r ∈ rs, ¬ Covers r t) → dbrrd_query_loop rs t = none := by
  intro rs
  induction rs with
  | nil => intro _ _ _; rfl
  | cons r rest ih =>
      intro hwf htl hnc
      have hwr := (hwf r (by simp)).1
      have hlr := (hwf r (by simp)).2
      have hupper : (t : Int) < (r.start : Int) + (r.resolution : Int) := by
        have h1 : r.last < r.start + r.resolution := by
          obtain ⟨_, _, _, _, _, _, _, _, _, hsl, hls⟩ := hwr
          omega
        exact_mod_cast (show t < r.start + r.resolution by omega)
      have hnchk :
          ¬ ((find_period t r.resolution : Nat) : Int) ≥ horizonLow r := by
        intro hc
        exact hnc r (by simp) ((query_check_iff r t hwr hupper).mp hc)
      simp only [dbrrd_query_loop]
      rw [if_neg hnchk]
      exact ih (fun x hx => hwf x (by simp [hx])) htl
        (fun x hx => hnc x (by simp [hx]))

theorem dbrrd_query_loop_hit {A : Type} (t L : Nat) :
    ∀ rs : List (RRD A), (∀ r ∈ rs, ringWF r ∧ r.last = L) → t ≤ L →
    rs.Pairwise (fun x y => x.resolution < y.resolution) →
    (∃ rc ∈ rs, Covers rc t) →
    ∃ R ∈ rs, Covers R t ∧
      dbrrd_query_loop rs t = some (rrd_get R (queryIndex R t), R.resolution) ∧
      (rrd_get R (queryIndex R t)).isSome = true ∧
      ∀ rx ∈ rs, Covers rx t → R.resolution ≤ rx.resolution := by
  intro rs
  induction rs with
  | nil =>
      intro _ _ _ hex
      obtain ⟨rc, h, _⟩ := hex
      simp at h
  | cons r rest ih =>
      intro hwf htl hsort hex
      have hwr := (hwf r (by simp)).1
      have hlr := (hwf r (by simp)).2
      have hupper : (t : Int) < (r.start : Int) + (r.resolution : Int) := by
        have h1 : r.last < r.start + r.resolution := by
          obtain ⟨_, _, _, _, _, _, _, _, _, hsl, hls⟩ := hwr
          omega
        exact_mod_cast (show t < r.start + r.resolution by omega)
      by_cases hcov : Covers r t
      · have hchk : ((find_period t r.resolution : Nat) : Int) ≥ horizonLow r :=
          (query_check_iff r t hwr hupper).mpr hcov
        refine ⟨r, by simp, hcov, ?_, ?_, ?_⟩
        · simp only [dbrrd_query_loop]
          rw [if_pos hchk]
        · exact (query_hit_index r t hwr hupper hcov).2.2
        · intro rx hrx hcx
          rcases List.mem_cons.mp hrx with h | h
          · rw [h]
          · have := (List.pairwise_cons.mp hsort).1 rx h
            omega
      · have hnchk :
            ¬ ((find_period t r.resolution : Nat) : Int) ≥ horizonLow r := by
          intro hc
          exact hcov ((query_check_iff r t hwr hupper).mp hc)
        have hex2 : ∃ rc ∈ rest, Covers rc t := by
          obtain ⟨rc, hm, hc⟩ := hex
          rcases List.mem_cons.mp hm with h | h
          · subst h
            exact absurd hc hcov
          · exact ⟨rc, h, hc⟩
        obtain ⟨R, hR, hRc, hRq, hRs, hRmin⟩ := ih
          (fun x hx => hwf x (by simp [hx])) htl
          (List.pairwise_cons.mp hsort).2 hex2
        refine ⟨R, by simp [hR], hRc, ?_, hRs, ?_⟩
        · simp only [dbrrd_query_loop]
          rw [if_neg hnchk]
          exact hRq
        · intro rx hrx hcx
          rcases List.mem_cons.mp hrx with h | h
          · subst h
            exact absurd hcx hcov
          · exact hRmin rx h hcx

/-- C1: dbrrd_query returns 0 when t is beyond the finest ring's last or
    the finest ring is empty; otherwise (in a well-formed stack of
    strictly increasing widths whose rings share one last value) it
    returns 0 when no ring's retained horizon contains t, and else
    returns 1 together with the width of a covering ring R of minimal
    width among all covering rings and the non-NULL pointer
    rrd_get(R, (bucket_start(t,R.width) - horizon_low(R)) / R.width). -/
theorem dbrrd_query_spec {A : Type} (r0 : RRD A) (rest : List (RRD A))
    (t : Nat) :
    (r0.last < t → dbrrd_query (r0 :: rest) t = none) ∧
    (rrd_len r0 = 0 → dbrrd_query (r0 :: rest) t = none) ∧
    ((∀ r ∈ r0 :: rest, ringWF r) → (∀ r ∈ r0 :: rest, r.last = r0.last) →
      (r0 :: rest).Pairwise (fun x y => x.resolution < y.resolution) →
      t ≤ r0.last →
      ((∀ r ∈ r0 :: rest, ¬ Covers r t) →
        dbrrd_query (r0 :: rest) t = none) ∧
      ((∃ rc ∈ r0 :: rest, Covers rc t) →
        ∃ R ∈ r0 :: rest, Covers R t ∧
          dbrrd_query (r0 :: rest) t =
            some (rrd_get R (queryIndex R t), R.resolution) ∧
          (rrd_get R (queryIndex R t)).isSome = true ∧
          ∀ rx ∈ r0 :: rest, Covers rx t → R.resolution ≤ rx.resolution)) := by
  refine ⟨?_, ?_, ?_⟩
  · intro h
    simp only [dbrrd_query]
    rw [if_pos h]
  · intro h
    simp only [dbrrd_query]
    by_cases h1 : t > r0.last
    · rw [if_pos h1]
    · rw [if_neg h1, if_pos h]
  · intro hwf hlast hsort htl
    have hnf : ¬ (t > r0.last) := by omega
    have hlen0 : ¬ (rrd_len r0 = 0) := by
      have hw0 := hwf r0 (by simp)
      obtain ⟨_, _, _, _, _, hh0, hh1, ht0, ht1, _, _⟩ := hw0
      have := rrd_len_pos r0 ht0 ht1 hh0 hh1
      omega
    have hq : dbrrd_query (r0 :: rest) t = dbrrd_query_loop (r0 :: rest) t := by
      simp only [dbrrd_query]
      rw [if_neg hnf, if_neg hlen0]
    have hwfL : ∀ r ∈ r0 :: rest, ringWF r ∧ r.last = r0.last :=
      fun r hr => ⟨hwf r hr, hlast r hr⟩
    constructor
    · intro hnc
      rw [hq]
      exact dbrrd_query_loop_none t r0.last (r0 :: rest) hwfL htl hnc
    · intro hex
      obtain ⟨R, hR, hRc, hRq, hRs, hRmin⟩ :=
        dbrrd_query_loop_hit t r0.last (r0 :: rest) hwfL htl hsort hex
      exact ⟨R, hR, hRc, by rw [hq]; exact hRq, hRs, hRmin⟩

/-- Witness for dbrrd_query_spec: a two-ring stack (widths 2 and 10,
    both with last = 11) queried at t = 11. -/
theorem dbrrd_query_spec_witness :
    ((∀ r ∈ [(⟨"a", 2, 4, [10, 11, 12, 13], 0, 2, 10, 11⟩ : RRD Nat),
        (⟨"b", 10, 3, [20, 21, 22], 0, 1, 10, 11⟩ : RRD Nat)], ringWF r) ∧
      (∀ r ∈ [(⟨"a", 2, 4, [10, 11, 12, 13], 0, 2, 10, 11⟩ : RRD Nat),
        (⟨"b", 10, 3, [20, 21, 22], 0, 1, 10, 11⟩ : RRD Nat)],
        r.last = (⟨"a", 2, 4, [10, 11, 12, 13], 0, 2, 10, 11⟩ : RRD Nat).last) ∧
      ([(⟨"a", 2, 4, [10, 11, 12, 13], 0, 2, 10, 11⟩ : RRD Nat),
        (⟨"b", 10, 3, [20, 21, 22], 0, 1, 10, 11⟩ : RRD Nat)].Pairwise
          (fun x y => x.resolution < y.resolution)) ∧
      11 ≤ (⟨"a", 2, 4, [10, 11, 12, 13], 0, 2, 10, 11⟩ : RRD Nat).last ∧
      (∃ rc ∈ [(⟨"a", 2, 4, [10, 11, 12, 13], 0, 2, 10, 11⟩ : RRD Nat),
        (⟨"b", 10, 3, [20, 21, 22], 0, 1, 10, 11⟩ : RRD Nat)], Covers rc 11)) ∧
    (∃ R ∈ [(⟨"a", 2, 4, [10, 11, 12, 13], 0, 2, 10, 11⟩ : RRD Nat),
        (⟨"b", 10, 3, [20, 21, 22], 0, 1, 10, 11⟩ : RRD Nat)], Covers R 11 ∧
      dbrrd_query [(⟨"a", 2, 4, [10, 11, 12, 13], 0, 2, 10, 11⟩ : RRD Nat),
          (⟨"b", 10, 3, [20, 21, 22], 0, 1, 10, 11⟩ : RRD Nat)] 11 =
        some (rrd_get R (queryIndex R 11), R.resolution) ∧
      (rrd_get R (queryIndex R 11)).isSome = true ∧
      ∀ rx ∈ [(⟨"a", 2, 4, [10, 11, 12, 13], 0, 2, 10, 11⟩ : RRD Nat),
        (⟨"b", 10, 3, [20, 21, 22], 0, 1, 10, 11⟩ : RRD Nat)],
        Covers rx 11 → R.resolution ≤ rx.resolution) :=
  ⟨⟨by decide, by decide, by decide, by decide, by decide⟩,
   ((dbrrd_query_spec (⟨"a", 2, 4, [10, 11, 12, 13], 0, 2, 10, 11⟩ : RRD Nat)
      [(⟨"b", 10, 3, [20, 21, 22], 0, 1, 10, 11⟩ : RRD Nat)] 11).2.2
     (by decide) (by decide) (by decide) (by decide)).2 (by decide)⟩

end Crrd
